import Mathlib

/-!
# Consistent-hashing discovery

A shallow embedding of `psiphon/server/discovery/consistent.go`: the service
state, its constructor, `serversChanged` and `selectServers`, followed by the
properties of those operations.

The hash ring (`github.com/Psiphon-Labs/consistent`) and the hash function
(`github.com/cespare/xxhash`) are third-party packages.  They enter the
development as parameters: every definition and theorem is stated for an
arbitrary ring implementation `L : consistent.Library`.

The reader/writer lock of the service is not modelled; every operation is a
sequential state transformer.
-/

namespace time

/-- An instant of the Go type `time.Time`, as a point of a discrete time line. -/
abbrev Time := Int

/-- The Go method `t.Before(u)`: the instant `t` is strictly earlier than `u`. -/
def Before (t u : Time) : Bool := decide (t < u)

end time

namespace net

/-- The Go type `net.IP`, a byte slice. -/
abbrev IP := List UInt8

end net

namespace psinet

/-- Modelled from the spec: the record `psinet.DiscoveryServer`, whose
declaration lies outside the sources at hand.  It carries an identity (the
ring placement key) and the discovery window, which `selectServers` reads as
`DiscoveryDateRange[0]` (start) and `DiscoveryDateRange[1]` (end). -/
structure DiscoveryServer where
  Identity : String
  DiscoveryDateRange : time.Time × time.Time
  deriving DecidableEq, Repr

end psinet

namespace discovery

/-- The empty struct `hasher` of the source. -/
structure hasher where
  deriving DecidableEq, Repr

/-- The method `hasher.Sum64`: it forwards to `xxhash.Sum64`, which is taken
as the parameter `xxhashSum64`. -/
def hasher.Sum64 (xxhashSum64 : List UInt8 → Nat) (_h : hasher) (data : List UInt8) : Nat :=
  xxhashSum64 data

/-- Modelled from the spec: the clock capability `now() -> timestamp`, whose
declaration lies outside the sources at hand.  A value of this type is the
clock as one call observes it: `Now` is the reading that call obtains. -/
structure clock where
  Now : time.Time
  deriving DecidableEq, Repr

end discovery

namespace consistent

/-- The members the service places on a ring: `serversChanged` is the only
place that builds a ring and it inserts discovery servers only, so the
interface `consistent.Member` is instantiated at that type and the downcast
in `selectServers` is the identity. -/
abbrev Member := psinet.DiscoveryServer

/-- The fields of `consistent.Config` that the service sets.  The service only
stores the literals 1 and 1 in `ReplicationFactor` and `Load` and hands them to
the ring package, and `PartitionCount` only receives a list length, so all
three are carried as natural numbers. -/
structure Config where
  PartitionCount : Nat
  ReplicationFactor : Nat
  Load : Nat
  Hasher : discovery.hasher
  deriving DecidableEq, Repr

/-- The ring package as the service consumes it: the type of rings, the
constructor `consistent.New` and the lookup `LocateKey`, whose result `none`
stands for the nil member. -/
structure Library where
  Consistent : Type
  New : List Member → Config → Consistent
  LocateKey : Consistent → net.IP → Option Member

end consistent

namespace discovery

/-- The service state: the struct `consistentHashingDiscovery`.  The field
`ring` is `none` for the nil pointer. -/
structure consistentHashingDiscovery (L : consistent.Library) where
  clk : clock
  config : consistent.Config
  ring : Option L.Consistent

/-- The constructor `newConsistentHashingDiscovery`.  Its Go error result is
the constant nil and is left out. -/
def newConsistentHashingDiscovery (L : consistent.Library) (clk : clock) :
    consistentHashingDiscovery L :=
  { clk := clk
    config :=
      { PartitionCount := 0
        ReplicationFactor := 1
        Load := 1
        Hasher := {} }
    ring := none }

/-- The method `serversChanged`. -/
def serversChanged {L : consistent.Library} (c : consistentHashingDiscovery L)
    (newServers : List psinet.DiscoveryServer) : consistentHashingDiscovery L :=
  if newServers.length = 0 then
    { c with ring := none }
  else
    let members : List consistent.Member := newServers.map (fun server => server)
    let config : consistent.Config := { c.config with PartitionCount := newServers.length }
    { c with config := config, ring := some (L.New members config) }

/-- The method `selectServers`.  The empty list stands for the nil slice. -/
def selectServers {L : consistent.Library} (c : consistentHashingDiscovery L)
    (clientIP : net.IP) : List psinet.DiscoveryServer :=
  match c.ring with
  | none => []
  | some ring =>
    match L.LocateKey ring clientIP with
    | none => []
    | some member =>
      let server : psinet.DiscoveryServer := member
      let discoveryDate := c.clk.Now
      if time.Before discoveryDate server.DiscoveryDateRange.1 ||
          !time.Before discoveryDate server.DiscoveryDateRange.2 then
        []
      else
        [server]

/-- One event in the life of a service: a call of one of the two methods, or
the clock moving to a new reading. -/
inductive Op where
  | serversChanged (newServers : List psinet.DiscoveryServer)
  | selectServers (clientIP : net.IP)
  | clockReads (t : time.Time)

/-- The effect of one event on the state.  A `selectServers` call leaves the
state as it is. -/
def step {L : consistent.Library} (c : consistentHashingDiscovery L) :
    Op → consistentHashingDiscovery L
  | Op.serversChanged newServers => serversChanged c newServers
  | Op.selectServers _ => c
  | Op.clockReads t => { c with clk := { Now := t } }

/-- The state after a sequence of events. -/
def run {L : consistent.Library} (c : consistentHashingDiscovery L) (ops : List Op) :
    consistentHashingDiscovery L :=
  ops.foldl step c

/-- A state is reachable when a freshly constructed service arrives at it by
some sequence of events. -/
def Reachable {L : consistent.Library} (c : consistentHashingDiscovery L) : Prop :=
  ∃ clk ops, c = run (newConsistentHashingDiscovery L clk) ops

/-- The record of one event in the membership history: a `serversChanged`
call replaces the last supplied list, any other event keeps it. -/
def noteMembership (last : Option (List psinet.DiscoveryServer)) :
    Op → Option (List psinet.DiscoveryServer)
  | Op.serversChanged newServers => some newServers
  | _ => last

/-- The list given to the most recent `serversChanged` call of a sequence of
events, `none` when there was no such call. -/
def lastMembership (ops : List Op) : Option (List psinet.DiscoveryServer) :=
  ops.foldl noteMembership none

/-- The configuration under which a ring for `n` servers is built. -/
def ringConfig (n : Nat) : consistent.Config :=
  { PartitionCount := n, ReplicationFactor := 1, Load := 1, Hasher := {} }

end discovery

namespace consistent

/-- Modelled from the spec: the placement guarantee of the ring capability
(section 4.2), which the ring package implements outside the sources at hand.
A ring constructed over a non-empty list of members with pairwise distinct
identities, with a partition count of at least the number of members, a
replication factor of 1 and a load factor of 1, gives every member a partition
that some key hashes into, so `LocateKey` returns that member for some key. -/
def CoversMembers (L : Library) : Prop :=
  ∀ (members : List Member) (cfg : Config),
    members ≠ [] →
    (members.map (fun m => m.Identity)).Nodup →
    members.length ≤ cfg.PartitionCount →
    cfg.ReplicationFactor = 1 →
    cfg.Load = 1 →
    ∀ m, m ∈ members → ∃ key, L.LocateKey (L.New members cfg) key = some m

/-- The lookup contract that the rebuild property assumes of the ring
package: `LocateKey` returns the member owning a partition, so it only returns
members the ring was constructed with. -/
def LocatesMembers (L : Library) : Prop :=
  ∀ (members : List Member) (cfg : Config) (key : net.IP) (m : Member),
    L.LocateKey (L.New members cfg) key = some m → m ∈ members

/-- The byte sum of a key, the hash of the sample ring below. -/
def byteSum (key : net.IP) : Nat :=
  (key.map (fun b => b.toNat)).sum

/-- A sample ring implementation, used to instantiate the theorems at concrete
inputs: partition `i` belongs to the member at position `i`, and a key falls
into the partition given by its byte sum modulo the partition count. -/
def sampleLibrary : Library where
  Consistent := List Member × Nat
  New := fun members cfg => (members, cfg.PartitionCount)
  LocateKey := fun ring key =>
    if ring.2 = 0 then none else ring.1[byteSum key % ring.2]?

end consistent

namespace discovery

/-- Server A of the example scenario, with window [10, 20). -/
def serverA : psinet.DiscoveryServer :=
  { Identity := "A", DiscoveryDateRange := (10, 20) }

/-- Server B of the example scenario, with window [0, 5). -/
def serverB : psinet.DiscoveryServer :=
  { Identity := "B", DiscoveryDateRange := (0, 5) }

/-- A server record whose window is malformed: it ends before it starts. -/
def serverM : psinet.DiscoveryServer :=
  { Identity := "M", DiscoveryDateRange := (9, 3) }

/-- A fresh sample service whose clock reads `t`. -/
def sampleFresh (t : time.Time) : consistentHashingDiscovery consistent.sampleLibrary :=
  newConsistentHashingDiscovery consistent.sampleLibrary { Now := t }

/-- The sample service of the example scenario: membership [A, B], clock
reading `t`. -/
def sampleService (t : time.Time) : consistentHashingDiscovery consistent.sampleLibrary :=
  serversChanged (sampleFresh t) [serverA, serverB]

end discovery

namespace discovery

/-- The constructor sets a replication factor of 1 and a load of 1, and no
event changes them. -/
theorem step_keeps_parameters {L : consistent.Library} (c : consistentHashingDiscovery L)
    (op : Op) (h : c.config.ReplicationFactor = 1 ∧ c.config.Load = 1) :
    (step c op).config.ReplicationFactor = 1 ∧ (step c op).config.Load = 1 := by
  cases op with
  | serversChanged newServers =>
    simp only [step, serversChanged]
    split
    · exact h
    · exact h
  | selectServers clientIP => exact h
  | clockReads t => exact h

/-- Every state a run arrives at keeps the replication factor and the load of
the state it started from, when these are 1. -/
theorem run_keeps_parameters {L : consistent.Library} (ops : List Op) :
    ∀ c : consistentHashingDiscovery L,
      c.config.ReplicationFactor = 1 ∧ c.config.Load = 1 →
      (run c ops).config.ReplicationFactor = 1 ∧ (run c ops).config.Load = 1 := by
  induction ops with
  | nil => intro c h; exact h
  | cons op rest ih =>
    intro c h
    exact ih (step c op) (step_keeps_parameters c op h)

/-- In a reachable state the replication factor and the load are 1. -/
theorem reachable_parameters {L : consistent.Library} (c : consistentHashingDiscovery L)
    (hc : Reachable c) : c.config.ReplicationFactor = 1 ∧ c.config.Load = 1 := by
  obtain ⟨clk, ops, rfl⟩ := hc
  exact run_keeps_parameters ops _ ⟨rfl, rfl⟩

/-- On a non-empty list `serversChanged` stores the list length as partition
count and publishes the ring built from the list under the updated
configuration. -/
theorem serversChanged_of_ne_nil {L : consistent.Library} (c : consistentHashingDiscovery L)
    (newServers : List psinet.DiscoveryServer) (hne : newServers ≠ []) :
    (serversChanged c newServers).config =
        { c.config with PartitionCount := newServers.length } ∧
      (serversChanged c newServers).ring =
        some (L.New newServers { c.config with PartitionCount := newServers.length }) := by
  have hlen : ¬ newServers.length = 0 := fun h => hne (List.length_eq_zero.mp h)
  simp [serversChanged, hlen]

/-- With replication factor and load 1, the configuration `serversChanged`
stores for a non-empty list is `ringConfig` of its length. -/
theorem updated_config_eq {cfg : consistent.Config} (n : Nat)
    (h : cfg.ReplicationFactor = 1 ∧ cfg.Load = 1) :
    ({ cfg with PartitionCount := n } : consistent.Config) = ringConfig n := by
  cases cfg with
  | mk pc rf load hs =>
    simp only at h
    simp [ringConfig, h.1, h.2]

/-- The byte sum of a key made of `i` bytes of value 1 is `i`. -/
theorem byteSum_replicate_one (i : Nat) :
    consistent.byteSum (List.replicate i (1 : UInt8)) = i := by
  induction i with
  | zero => rfl
  | succ n ih =>
    have h1 : (1 : UInt8).toNat = 1 := by decide
    simp only [consistent.byteSum, List.replicate_succ, List.map_cons, List.sum_cons, h1] at ih ⊢
    omega

/-- The sample ring meets the placement guarantee. -/
theorem sampleLibrary_covers : consistent.CoversMembers consistent.sampleLibrary := by
  intro members cfg _ _ hcount _ _ m hm
  obtain ⟨i, hi, hget⟩ := List.getElem_of_mem hm
  refine ⟨List.replicate i (1 : UInt8), ?_⟩
  have hpc : i < cfg.PartitionCount := lt_of_lt_of_le hi hcount
  have hne : ¬ cfg.PartitionCount = 0 := by omega
  simp only [consistent.sampleLibrary, byteSum_replicate_one, hne, if_false,
    Nat.mod_eq_of_lt hpc]
  rw [List.getElem?_eq_getElem hi, hget]

/-- The sample ring meets the lookup contract. -/
theorem sampleLibrary_locates : consistent.LocatesMembers consistent.sampleLibrary := by
  intro members cfg key m h
  simp only [consistent.sampleLibrary] at h
  split at h
  · cases h
  · exact List.getElem?_mem h

/-- Unfolding of `selectServers` on a state whose ring locates the key to a
server: the result is decided by the window test alone. -/
theorem selectServers_located {L : consistent.Library} (c : consistentHashingDiscovery L)
    (ring : L.Consistent) (clientIP : net.IP) (s : psinet.DiscoveryServer)
    (hring : c.ring = some ring) (hloc : L.LocateKey ring clientIP = some s) :
    selectServers c clientIP =
      if s.DiscoveryDateRange.1 ≤ c.clk.Now ∧ c.clk.Now < s.DiscoveryDateRange.2 then [s]
      else [] := by
  unfold selectServers
  rw [hring]
  simp only [hloc, time.Before]
  by_cases h1 : c.clk.Now < s.DiscoveryDateRange.1
  · have h : ¬ (s.DiscoveryDateRange.1 ≤ c.clk.Now ∧ c.clk.Now < s.DiscoveryDateRange.2) :=
      fun h => absurd (lt_of_lt_of_le h1 h.1) (lt_irrefl _)
    simp [h1, h]
  · by_cases h2 : c.clk.Now < s.DiscoveryDateRange.2
    · have h : s.DiscoveryDateRange.1 ≤ c.clk.Now ∧ c.clk.Now < s.DiscoveryDateRange.2 :=
        ⟨not_lt.mp h1, h2⟩
      simp [h1, h2, h]
    · have h : ¬ (s.DiscoveryDateRange.1 ≤ c.clk.Now ∧ c.clk.Now < s.DiscoveryDateRange.2) :=
        fun h => h2 h.2
      simp [h1, h2, h]

/-- C1 (window gating): in a state whose ring is present and locates the key
`clientIP` to the server `s`, `selectServers` returns the one-element list
`[s]` exactly when the clock reading lies in the window of `s`
(start ≤ reading < end), and returns the empty list when the reading is before
the start or at or after the end. -/
theorem selectServers_window_gating {L : consistent.Library}
    (c : consistentHashingDiscovery L) (ring : L.Consistent) (clientIP : net.IP)
    (s : psinet.DiscoveryServer)
    (hring : c.ring = some ring) (hloc : L.LocateKey ring clientIP = some s) :
    (selectServers c clientIP = [s] ↔
        s.DiscoveryDateRange.1 ≤ c.clk.Now ∧ c.clk.Now < s.DiscoveryDateRange.2) ∧
      (c.clk.Now < s.DiscoveryDateRange.1 ∨ s.DiscoveryDateRange.2 ≤ c.clk.Now →
        selectServers c clientIP = []) := by
  rw [selectServers_located c ring clientIP s hring hloc]
  refine ⟨?_, ?_⟩
  · by_cases h : s.DiscoveryDateRange.1 ≤ c.clk.Now ∧ c.clk.Now < s.DiscoveryDateRange.2
    · simp [h]
    · simp [h]
  · intro hout
    have h : ¬ (s.DiscoveryDateRange.1 ≤ c.clk.Now ∧ c.clk.Now < s.DiscoveryDateRange.2) := by
      intro h
      rcases hout with hlt | hge
      · exact absurd (lt_of_lt_of_le hlt h.1) (lt_irrefl _)
      · exact absurd (lt_of_lt_of_le h.2 hge) (lt_irrefl _)
    simp [h]

/-- Instance of C1 on the example scenario: membership [A, B], clock reading
12, and a key that the ring locates to A. -/
theorem selectServers_window_gating_witness :
    ((selectServers (sampleService 12) [0] = [serverA] ↔
        serverA.DiscoveryDateRange.1 ≤ (sampleService 12).clk.Now ∧
          (sampleService 12).clk.Now < serverA.DiscoveryDateRange.2) ∧
      ((sampleService 12).clk.Now < serverA.DiscoveryDateRange.1 ∨
          serverA.DiscoveryDateRange.2 ≤ (sampleService 12).clk.Now →
        selectServers (sampleService 12) [0] = [])) :=
  selectServers_window_gating (sampleService 12) ([serverA, serverB], 2) [0] serverA
    (by rfl) (by decide)

/-- The example scenario of the window-gating property, evaluated on the
sample ring: at reading 12 a key owned by A yields [A] and a key owned by B
yields nothing, and at reading 100 both yield nothing. -/
theorem selectServers_example_scenario :
    selectServers (sampleService 12) [0] = [serverA] ∧
      selectServers (sampleService 12) [1] = [] ∧
      selectServers (sampleService 100) [0] = [] ∧
      selectServers (sampleService 100) [1] = [] := by
  decide

/-- C2 (empty membership): from every prior state, after `serversChanged` is
called with the empty list, `selectServers` returns the empty result for every
key, whatever the clock reads afterwards. -/
theorem selectServers_after_empty_membership {L : consistent.Library}
    (c : consistentHashingDiscovery L) (clientIP : net.IP) (t : time.Time) :
    (serversChanged c []).ring = none ∧
      selectServers (step (serversChanged c []) (Op.clockReads t)) clientIP = [] := by
  simp [serversChanged, selectServers, step]

/-- C8 (result cardinality): for every state, key and clock reading the list
returned by `selectServers` has length 0 or 1; the function is total, so there
is no outcome other than such a list. -/
theorem selectServers_length_le_one {L : consistent.Library}
    (c : consistentHashingDiscovery L) (clientIP : net.IP) :
    (selectServers c clientIP).length = 0 ∨ (selectServers c clientIP).length = 1 := by
  unfold selectServers
  split
  · simp
  · split
    · simp
    · simp only
      split <;> simp

/-- C9 (no owner is a no-result): in a state whose ring is present, a key for
which the ring reports no owner gets the empty result; this is the result the
same call gets when the ring is absent, and it is the same for every clock
reading. -/
theorem selectServers_no_owner {L : consistent.Library}
    (c : consistentHashingDiscovery L) (ring : L.Consistent) (clientIP : net.IP)
    (hring : c.ring = some ring) (hloc : L.LocateKey ring clientIP = none) :
    selectServers c clientIP = [] ∧
      selectServers c clientIP =
        selectServers ({ c with ring := none } : consistentHashingDiscovery L) clientIP ∧
      ∀ t : time.Time, selectServers (step c (Op.clockReads t)) clientIP = [] := by
  refine ⟨?_, ?_, ?_⟩
  · simp [selectServers, hring, hloc]
  · simp [selectServers, hring, hloc]
  · intro t
    simp [selectServers, step, hring, hloc]

/-- Instance of C9 on the sample ring: a ring over [A, B] with three
partitions has no owner for the key [2]. -/
theorem selectServers_no_owner_witness :
    selectServers
        ({ clk := { Now := 12 }, config := ringConfig 3,
           ring := some ([serverA, serverB], 3) } :
          consistentHashingDiscovery consistent.sampleLibrary) [2] = [] ∧
      selectServers
        ({ clk := { Now := 12 }, config := ringConfig 3,
           ring := some ([serverA, serverB], 3) } :
          consistentHashingDiscovery consistent.sampleLibrary) [2] =
        selectServers
          ({ clk := { Now := 12 }, config := ringConfig 3, ring := none } :
            consistentHashingDiscovery consistent.sampleLibrary) [2] ∧
      ∀ t : time.Time,
        selectServers
          (step ({ clk := { Now := 12 }, config := ringConfig 3,
                   ring := some ([serverA, serverB], 3) } :
            consistentHashingDiscovery consistent.sampleLibrary) (Op.clockReads t)) [2] = [] :=
  selectServers_no_owner _ ([serverA, serverB], 3) [2] (by rfl) (by decide)

/-- C10 (malformed or empty window): when the ring locates the key to a server
whose window has start ≥ end, `selectServers` returns the empty result at
every clock reading. -/
theorem selectServers_malformed_window {L : consistent.Library}
    (c : consistentHashingDiscovery L) (ring : L.Consistent) (clientIP : net.IP)
    (s : psinet.DiscoveryServer)
    (hring : c.ring = some ring) (hloc : L.LocateKey ring clientIP = some s)
    (hbad : s.DiscoveryDateRange.2 ≤ s.DiscoveryDateRange.1) (t : time.Time) :
    selectServers (step c (Op.clockReads t)) clientIP = [] := by
  have hring2 : (step c (Op.clockReads t)).ring = some ring := by simp [step, hring]
  rw [selectServers_located _ ring clientIP s hring2 hloc]
  have h : ¬ (s.DiscoveryDateRange.1 ≤ (step c (Op.clockReads t)).clk.Now ∧
      (step c (Op.clockReads t)).clk.Now < s.DiscoveryDateRange.2) :=
    fun h => absurd (lt_of_lt_of_le (lt_of_le_of_lt h.1 h.2) hbad) (lt_irrefl _)
  simp [h]

/-- Instance of C10: a ring over the single malformed record M (window
[9, 3)), read at clock 5. -/
theorem selectServers_malformed_window_witness :
    selectServers (step (serversChanged (sampleFresh 0) [serverM]) (Op.clockReads 5)) [7] = [] :=
  selectServers_malformed_window (serversChanged (sampleFresh 0) [serverM]) ([serverM], 1) [7]
    serverM (by rfl) (by decide) (by decide) 5

/-- C4 (rebuild parameters): in every reachable state and for every non-empty
list `newServers`, `serversChanged` stores `len(newServers)` as partition
count and publishes the ring constructed from `newServers` itself, in the same
order, under the configuration with partition count `len(newServers)`,
replication factor 1 and load 1, whatever the partition count was before. -/
theorem serversChanged_rebuild_parameters {L : consistent.Library}
    (c : consistentHashingDiscovery L) (hc : Reachable c)
    (newServers : List psinet.DiscoveryServer) (hne : newServers ≠ []) :
    (serversChanged c newServers).config.PartitionCount = newServers.length ∧
      (serversChanged c newServers).config =
        { PartitionCount := newServers.length, ReplicationFactor := 1, Load := 1,
          Hasher := {} } ∧
      (serversChanged c newServers).ring =
        some (L.New newServers
          { PartitionCount := newServers.length, ReplicationFactor := 1, Load := 1,
            Hasher := {} }) := by
  have hcfg := updated_config_eq newServers.length (reachable_parameters c hc)
  obtain ⟨h1, h2⟩ := serversChanged_of_ne_nil c newServers hne
  rw [hcfg] at h1 h2
  refine ⟨?_, h1, h2⟩
  rw [h1]
  rfl

/-- Instance of C4: the service that already holds the ring for [A, B]
(partition count 2) is given the one-element list [M]. -/
theorem serversChanged_rebuild_parameters_witness :
    (serversChanged (sampleService 0) [serverM]).config.PartitionCount = [serverM].length ∧
      (serversChanged (sampleService 0) [serverM]).config =
        { PartitionCount := [serverM].length, ReplicationFactor := 1, Load := 1,
          Hasher := {} } ∧
      (serversChanged (sampleService 0) [serverM]).ring =
        some (consistent.sampleLibrary.New [serverM]
          { PartitionCount := [serverM].length, ReplicationFactor := 1, Load := 1,
            Hasher := {} }) :=
  serversChanged_rebuild_parameters (sampleService 0)
    ⟨{ Now := 0 }, [Op.serversChanged [serverA, serverB]], rfl⟩ [serverM] (by decide)

/-- One event keeps the ring in step with the membership history: when the
ring of `c` is the one determined by the last supplied list `last`, the ring
after the event is the one determined by the updated history. -/
theorem step_ring_tracks {L : consistent.Library} (c : consistentHashingDiscovery L)
    (last : Option (List psinet.DiscoveryServer)) (op : Op)
    (hp : c.config.ReplicationFactor = 1 ∧ c.config.Load = 1)
    (hr : c.ring = last.bind (fun l =>
      if l.length = 0 then none else some (L.New l (ringConfig l.length)))) :
    (step c op).ring = (noteMembership last op).bind (fun l =>
      if l.length = 0 then none else some (L.New l (ringConfig l.length))) := by
  cases op with
  | serversChanged newServers =>
    by_cases hlen : newServers.length = 0
    · have hnil : newServers = [] := List.length_eq_zero.mp hlen
      simp [step, noteMembership, serversChanged, hnil]
    · have hne : newServers ≠ [] := fun h => hlen (by rw [h]; rfl)
      have h2 := (serversChanged_of_ne_nil c newServers hne).2
      rw [updated_config_eq newServers.length hp] at h2
      simp [step, noteMembership, h2, hne]
  | selectServers clientIP => exact hr
  | clockReads t => exact hr

/-- A run keeps the ring in step with the membership history. -/
theorem run_ring_tracks {L : consistent.Library} (ops : List Op) :
    ∀ (c : consistentHashingDiscovery L) (last : Option (List psinet.DiscoveryServer)),
      c.config.ReplicationFactor = 1 ∧ c.config.Load = 1 →
      c.ring = last.bind (fun l =>
        if l.length = 0 then none else some (L.New l (ringConfig l.length))) →
      (run c ops).ring = (ops.foldl noteMembership last).bind (fun l =>
        if l.length = 0 then none else some (L.New l (ringConfig l.length))) := by
  induction ops with
  | nil => intro c last _ hr; exact hr
  | cons op rest ih =>
    intro c last hp hr
    exact ih (step c op) (noteMembership last op) (step_keeps_parameters c op hp)
      (step_ring_tracks c last op hp hr)

/-- C5 (ring-snapshot invariant): in the state a freshly constructed service
reaches by any sequence of `serversChanged` calls, `selectServers` calls and
clock movements, the ring is absent exactly when there has been no
`serversChanged` call yet or the most recent one was given the empty list;
otherwise the ring is the one built from the most recently supplied list, with
the length of that list as partition count, replication factor 1 and load 1. -/
theorem ring_snapshot_invariant (L : consistent.Library) (clk : clock) (ops : List Op) :
    ((run (newConsistentHashingDiscovery L clk) ops).ring = none ↔
        lastMembership ops = none ∨ lastMembership ops = some []) ∧
      ∀ l, lastMembership ops = some l → l ≠ [] →
        (run (newConsistentHashingDiscovery L clk) ops).ring =
          some (L.New l
            { PartitionCount := l.length, ReplicationFactor := 1, Load := 1, Hasher := {} }) := by
  have h := run_ring_tracks ops (newConsistentHashingDiscovery L clk) none ⟨rfl, rfl⟩ rfl
  change _ = (lastMembership ops).bind _ at h
  rw [h]
  cases hlast : lastMembership ops with
  | none => simp
  | some l =>
    cases l with
    | nil => simp
    | cons a rest => simp [ringConfig]

/-- C3 (coverage): for a ring implementation that meets the placement
guarantee of the ring capability, after `serversChanged` is given a non-empty
list `S` of servers with pairwise distinct identities in a reachable state,
the published ring is the one built from `S` with partition count `|S|`,
replication factor 1 and load 1, and every server `s` of `S` has a key that
this ring locates to `s`, for which `selectServers` returns `[s]` at every
clock reading inside the window of `s`. -/
theorem serversChanged_coverage {L : consistent.Library} (hL : consistent.CoversMembers L)
    (c : consistentHashingDiscovery L) (hc : Reachable c)
    (S : List psinet.DiscoveryServer) (hne : S ≠ [])
    (hdistinct : (S.map (fun m => m.Identity)).Nodup)
    (s : psinet.DiscoveryServer) (hs : s ∈ S) :
    (serversChanged c S).ring =
        some (L.New S
          { PartitionCount := S.length, ReplicationFactor := 1, Load := 1, Hasher := {} }) ∧
      ∃ clientIP : net.IP,
        L.LocateKey
            (L.New S
              { PartitionCount := S.length, ReplicationFactor := 1, Load := 1, Hasher := {} })
            clientIP = some s ∧
          ∀ t : time.Time, s.DiscoveryDateRange.1 ≤ t → t < s.DiscoveryDateRange.2 →
            selectServers (step (serversChanged c S) (Op.clockReads t)) clientIP = [s] := by
  have hring : (serversChanged c S).ring = some (L.New S (ringConfig S.length)) := by
    have h2 := (serversChanged_of_ne_nil c S hne).2
    rw [updated_config_eq S.length (reachable_parameters c hc)] at h2
    exact h2
  obtain ⟨clientIP, hloc⟩ :=
    hL S (ringConfig S.length) hne hdistinct (le_refl _) rfl rfl s hs
  refine ⟨hring, clientIP, hloc, ?_⟩
  intro t h1 h2
  have hring2 : (step (serversChanged c S) (Op.clockReads t)).ring =
      some (L.New S (ringConfig S.length)) := by
    simp [step, hring]
  rw [selectServers_located _ _ clientIP s hring2 hloc]
  have hin : s.DiscoveryDateRange.1 ≤ (step (serversChanged c S) (Op.clockReads t)).clk.Now ∧
      (step (serversChanged c S) (Op.clockReads t)).clk.Now < s.DiscoveryDateRange.2 :=
    ⟨h1, h2⟩
  simp [hin]

/-- Instance of C3 on the sample ring: a fresh service is given [A, B], and
the server looked for is B. -/
theorem serversChanged_coverage_witness :
    (serversChanged (sampleFresh 0) [serverA, serverB]).ring =
        some (consistent.sampleLibrary.New [serverA, serverB]
          { PartitionCount := [serverA, serverB].length, ReplicationFactor := 1, Load := 1,
            Hasher := {} }) ∧
      ∃ clientIP : net.IP,
        consistent.sampleLibrary.LocateKey
            (consistent.sampleLibrary.New [serverA, serverB]
              { PartitionCount := [serverA, serverB].length, ReplicationFactor := 1, Load := 1,
                Hasher := {} })
            clientIP = some serverB ∧
          ∀ t : time.Time, serverB.DiscoveryDateRange.1 ≤ t → t < serverB.DiscoveryDateRange.2 →
            selectServers
              (step (serversChanged (sampleFresh 0) [serverA, serverB]) (Op.clockReads t))
              clientIP = [serverB] :=
  serversChanged_coverage sampleLibrary_covers (sampleFresh 0) ⟨{ Now := 0 }, [], rfl⟩
    [serverA, serverB] (by decide) (by decide) serverB (by decide)

/-- C6 (rebuild replaces wholesale): for a ring implementation whose lookup
only returns members the ring was constructed with, and for lists `S1` and `S2`
with no server in common, after `serversChanged S1` followed by
`serversChanged S2` in a reachable state no `selectServers` call returns a
member of `S1`, whatever the key and the clock reading; and the ring is the
one a fresh service holds after `serversChanged S2` alone. -/
theorem serversChanged_replaces_wholesale {L : consistent.Library}
    (hL : consistent.LocatesMembers L)
    (c : consistentHashingDiscovery L) (hc : Reachable c)
    (S1 S2 : List psinet.DiscoveryServer) (hdisj : ∀ s, s ∈ S1 → s ∉ S2) (clk : clock) :
    (∀ (clientIP : net.IP) (t : time.Time) (s : psinet.DiscoveryServer),
        s ∈ selectServers
            (step (serversChanged (serversChanged c S1) S2) (Op.clockReads t)) clientIP →
          s ∉ S1) ∧
      (serversChanged (serversChanged c S1) S2).ring =
        (serversChanged (newConsistentHashingDiscovery L clk) S2).ring := by
  have hp1 : (serversChanged c S1).config.ReplicationFactor = 1 ∧
      (serversChanged c S1).config.Load = 1 :=
    step_keeps_parameters c (Op.serversChanged S1) (reachable_parameters c hc)
  by_cases hlen : S2.length = 0
  · have hnil : S2 = [] := List.length_eq_zero.mp hlen
    subst hnil
    refine ⟨?_, ?_⟩
    · intro clientIP t s hmem
      simp [serversChanged, selectServers, step] at hmem
    · simp [serversChanged]
  · have hne : S2 ≠ [] := fun h => hlen (by rw [h]; rfl)
    have hring := (serversChanged_of_ne_nil (serversChanged c S1) S2 hne).2
    rw [updated_config_eq S2.length hp1] at hring
    have hfresh := (serversChanged_of_ne_nil (newConsistentHashingDiscovery L clk) S2 hne).2
    rw [updated_config_eq S2.length ⟨rfl, rfl⟩] at hfresh
    refine ⟨?_, ?_⟩
    · intro clientIP t s hmem hin1
      have hring2 : (step (serversChanged (serversChanged c S1) S2) (Op.clockReads t)).ring =
          some (L.New S2 (ringConfig S2.length)) := by
        simp [step, hring]
      unfold selectServers at hmem
      rw [hring2] at hmem
      simp only at hmem
      cases hloc : L.LocateKey (L.New S2 (ringConfig S2.length)) clientIP with
      | none =>
        rw [hloc] at hmem
        simp at hmem
      | some m =>
        rw [hloc] at hmem
        simp only at hmem
        split at hmem
        · simp at hmem
        · have hsm : s = m := by simpa using hmem
          subst hsm
          exact hdisj s hin1 (hL S2 (ringConfig S2.length) clientIP s hloc)
    · rw [hring, hfresh]

/-- Instance of C6 on the sample ring: a fresh service is given [A] and then
[B]. -/
theorem serversChanged_replaces_wholesale_witness :
    (∀ (clientIP : net.IP) (t : time.Time) (s : psinet.DiscoveryServer),
        s ∈ selectServers
            (step (serversChanged (serversChanged (sampleFresh 0) [serverA]) [serverB])
              (Op.clockReads t)) clientIP →
          s ∉ [serverA]) ∧
      (serversChanged (serversChanged (sampleFresh 0) [serverA]) [serverB]).ring =
        (serversChanged (newConsistentHashingDiscovery consistent.sampleLibrary { Now := 7 })
          [serverB]).ring :=
  serversChanged_replaces_wholesale sampleLibrary_locates (sampleFresh 0)
    ⟨{ Now := 0 }, [], rfl⟩ [serverA] [serverB] (by decide) { Now := 7 }

end discovery
